import Mathlib

/-!
Verification of `src/answers/exercise-1.py`: a linear pandas script that
loads a date-indexed stock-price series, reports the missing-value rate
overall and per weekday, forward-fills missing values, and computes a
centered rolling mean of window 20 over the filled series.

Embedding conventions:
* a row of the loaded frame is its weekday (`Nat`, Monday = 0; the value
  `stocks.index.weekday` takes is always below 7, stated as a hypothesis
  where it matters) together with an optional price (`Option ℚ`, with
  `none` standing for a missing / NaN cell);
* `stocks.isnull().mean()` on the `Price` column is `overallMissingRate`
  (pandas `mean` returns NaN on an empty frame, modelled as `none`);
* `groupby('Weekday').agg(lambda x: x.isnull().sum()/len(x))` is
  `weekdayReport` (pandas groupby lists only keys actually present, in
  increasing order);
* `fillna(method='ffill')` is `ffill` (carry the last observed value);
* `rolling(20, center=True).mean()` is `rollingMeanCenter20`: pandas uses
  the fixed-window indexer with centering offset `(20 - 1) / 2 = 9`, so
  the window of output position `i` is the half-open index range
  `[i + 10 - 20, i + 10)` clipped to the frame, and the default
  `min_periods` for an integer window equals the window size, so any
  window with fewer than 20 non-NaN observations (truncated at an edge,
  or containing a NaN) yields NaN (`none`).
-/

/-- A row of the loaded frame: the weekday derived from the `Date` index
(Monday = 0 … Sunday = 6) and the possibly-missing `Price` value. -/
structure Row where
  weekday : Nat
  price : Option ℚ
deriving DecidableEq, Repr

/-- The `Price` column of a frame. -/
def prices (s : List Row) : List (Option ℚ) :=
  s.map (·.price)

/-- Count of missing `Price` cells, as in `stocks.isnull().sum()`. -/
def missingCount (s : List Row) : Nat :=
  s.countP (fun r => r.price.isNone)

/-- Embedding of `stocks.isnull().mean()` for the `Price` column: the
fraction of rows whose value is absent.  On an empty frame pandas `mean`
returns NaN, modelled as `none`. -/
def overallMissingRate (s : List Row) : Option ℚ :=
  if s.isEmpty then none
  else some ((missingCount s : ℚ) / (s.length : ℚ))

/-- The rows falling in the weekday bucket `w`, i.e. the group that
`groupby('Weekday')` forms for key `w`. -/
def bucket (s : List Row) (w : Nat) : List Row :=
  s.filter (fun r => r.weekday = w)

/-- Embedding of
`stocks.assign(Weekday = stocks.index.weekday).groupby('Weekday').agg(lambda x: x.isnull().sum()/len(x))`:
for each weekday key present in the frame (in increasing order, as pandas
sorts group keys; a weekday value is always one of 0 … 6), the ratio of
missing `Price` cells to rows in that group.  Keys with no rows do not
appear, as in pandas groupby. -/
def weekdayReport (s : List Row) : List (Nat × ℚ) :=
  (List.range 7).filterMap (fun w =>
    if (bucket s w).isEmpty then none
    else some (w, (missingCount (bucket s w) : ℚ) / ((bucket s w).length : ℚ)))

/-- Forward fill with an explicit carried last observation: a missing cell
becomes the carried value, an observed cell is kept and becomes the new
carried value. -/
def ffillFrom : Option ℚ → List (Option ℚ) → List (Option ℚ)
  | _, [] => []
  | last, none :: rest => last :: ffillFrom last rest
  | _, some v :: rest => some v :: ffillFrom (some v) rest

/-- Embedding of `stocks.fillna(method='ffill')` on the `Price` column:
before the first observation nothing has been seen, so the carry starts
at `none`. -/
def ffill (s : List (Option ℚ)) : List (Option ℚ) :=
  ffillFrom none s

/-- The last observed (non-missing) value of a list, starting from a
carried value `last`; used to describe what `ffillFrom` puts at each
position. -/
def lastCarry (last : Option ℚ) (l : List (Option ℚ)) : Option ℚ :=
  l.foldl (fun acc x => match x with | some v => some v | none => acc) last

/-- The nearest preceding non-missing value, scanning `l` left to right;
`none` when `l` has no non-missing value. -/
def lastSome (l : List (Option ℚ)) : Option ℚ :=
  lastCarry none l

/-- The window of values that `rolling(20, center=True)` attaches to
output position `i`: pandas' fixed indexer with centering offset 9 uses
the half-open index range `[i + 10 - 20, i + 10)` clipped to the frame
(natural subtraction performs the lower clip). -/
def window20 (s : List (Option ℚ)) (i : Nat) : List (Option ℚ) :=
  (s.drop (i - 10)).take (min (i + 10) s.length - (i - 10))

/-- Embedding of `df['Price'].rolling(20, center=True).mean()`: at each
position, if the window holds at least `min_periods = 20` non-missing
observations the output is their mean, otherwise NaN (`none`). -/
def rollingMeanCenter20 (s : List (Option ℚ)) : List (Option ℚ) :=
  (List.range s.length).map (fun i =>
    let obs := (window20 s i).filterMap id
    if 20 ≤ obs.length then some (obs.sum / (obs.length : ℚ)) else none)

/-- Embedding of `stocks.fillna(method='ffill')` at the frame level:
forward-fills the `Price` column, keeping each row's weekday. -/
def fillnaFfill (s : List Row) : List Row :=
  (s.zip (ffill (prices s))).map (fun p => ⟨p.1.weekday, p.2⟩)

/-- The values the script computes in order, together with the binding
`stocks` as it stands after all of them have run.  Every pandas call in
the script (`isnull`, `mean`, `assign`, `groupby`, `agg`, `fillna`
without `inplace`, `rolling`) returns a new object, so the binding is
simply threaded through unchanged. -/
structure ScriptResult where
  overall : Option ℚ
  perWeekday : List (Nat × ℚ)
  filled : List Row
  rolling : List (Option ℚ)
  stocksAfter : List Row
deriving Repr

/-- The straight-line script of `exercise-1.py` after loading, as a pure
function of the loaded frame. -/
def runScript (stocks : List Row) : ScriptResult :=
  let overall := overallMissingRate stocks
  let byWeekday := weekdayReport stocks
  let filled := fillnaFfill stocks
  let rolling := rollingMeanCenter20 (prices filled)
  ⟨overall, byWeekday, filled, rolling, stocks⟩

/-- The scenario frame of the spec: `[(Mon,10),(Tue,None),(Wed,None),(Thu,13)]`. -/
def demoRows : List Row := [⟨0, some 10⟩, ⟨1, none⟩, ⟨2, none⟩, ⟨3, some 13⟩]

/-! Helper lemmas about forward fill. -/

theorem ffillFrom_length (last : Option ℚ) (s : List (Option ℚ)) :
    (ffillFrom last s).length = s.length := by
  induction s generalizing last with
  | nil => rfl
  | cons x rest ih =>
    cases x with
    | none => simpa [ffillFrom] using ih last
    | some v => simpa [ffillFrom] using ih (some v)

theorem lastCarry_cons (last : Option ℚ) (x : Option ℚ) (l : List (Option ℚ)) :
    lastCarry last (x :: l) =
      lastCarry (match x with | some v => some v | none => last) l := by
  cases x <;> rfl

theorem lastCarry_append_single (last : Option ℚ) (l : List (Option ℚ)) (x : Option ℚ) :
    lastCarry last (l ++ [x]) =
      match x with | some v => some v | none => lastCarry last l := by
  cases x <;> simp [lastCarry, List.foldl_append]

theorem lastCarry_all_none (last : Option ℚ) (l : List (Option ℚ))
    (h : ∀ x ∈ l, x = none) : lastCarry last l = last := by
  induction l with
  | nil => rfl
  | cons x rest ih =>
    have hx : x = none := h x (by simp)
    subst hx
    exact ih fun y hy => h y (by simp [hy])

theorem ffillFrom_getElem? (s : List (Option ℚ)) (last : Option ℚ) (i : Nat)
    (h : i < s.length) :
    (ffillFrom last s)[i]? = some (lastCarry last (s.take (i + 1))) := by
  induction s generalizing last i with
  | nil => simp at h
  | cons x rest ih =>
    cases i with
    | zero =>
      cases x <;> simp [ffillFrom, lastCarry]
    | succ j =>
      have hj : j < rest.length := by simpa using h
      cases x with
      | none =>
        simpa [ffillFrom, List.take_succ_cons, lastCarry_cons] using ih last j hj
      | some v =>
        simpa [ffillFrom, List.take_succ_cons, lastCarry_cons] using ih (some v) j hj

theorem ffill_getElem? (s : List (Option ℚ)) (i : Nat) (h : i < s.length) :
    (ffill s)[i]? = some (lastSome (s.take (i + 1))) :=
  ffillFrom_getElem? s none i h

theorem ffillFrom_idem (s : List (Option ℚ)) (last : Option ℚ) :
    ffillFrom last (ffillFrom last s) = ffillFrom last s := by
  induction s generalizing last with
  | nil => rfl
  | cons x rest ih =>
    cases x with
    | none =>
      cases last with
      | none => simpa [ffillFrom] using ih none
      | some v => simpa [ffillFrom] using ih (some v)
    | some v => simpa [ffillFrom] using ih (some v)

/-- C3: forward fill leaves every non-missing value unchanged, replaces a
missing value by the nearest preceding non-missing value (`lastSome` of
the part before it), and leaves a position missing when nothing
non-missing comes before it (a leading missing run). -/
theorem ffill_pointwise_spec (s : List (Option ℚ)) (i : Nat) (h : i < s.length) :
    (∀ v : ℚ, s[i]? = some (some v) → (ffill s)[i]? = some (some v)) ∧
    (s[i]? = some none → (ffill s)[i]? = some (lastSome (s.take i))) ∧
    (s[i]? = some none → (∀ x ∈ s.take i, x = none) → (ffill s)[i]? = some none) := by
  have hmain := ffill_getElem? s i h
  have htake : s.take (i + 1) = s.take i ++ s[i]?.toList := List.take_succ
  refine ⟨?_, ?_, ?_⟩
  · intro v hv
    rw [hmain, htake, hv]
    simp [lastSome, lastCarry_append_single]
  · intro hv
    rw [hmain, htake, hv]
    simp [lastSome, lastCarry_append_single]
  · intro hv hall
    rw [hmain, htake, hv]
    simp [lastSome, lastCarry_append_single, lastCarry_all_none none _ hall]

/-- Witness for C3 at the concrete series `[some 10, none, none]`, position 2. -/
theorem ffill_pointwise_spec_witness :
    2 < ([some 10, none, none] : List (Option ℚ)).length ∧
    ((∀ v : ℚ, ([some 10, none, none] : List (Option ℚ))[2]? = some (some v) →
        (ffill [some 10, none, none])[2]? = some (some v)) ∧
     (([some 10, none, none] : List (Option ℚ))[2]? = some none →
        (ffill [some 10, none, none])[2]? =
          some (lastSome (([some 10, none, none] : List (Option ℚ)).take 2))) ∧
     (([some 10, none, none] : List (Option ℚ))[2]? = some none →
        (∀ x ∈ ([some 10, none, none] : List (Option ℚ)).take 2, x = none) →
        (ffill [some 10, none, none])[2]? = some none)) :=
  ⟨by decide, ffill_pointwise_spec [some 10, none, none] 2 (by decide)⟩

/-- C6: forward fill is idempotent: applying it twice yields the same
series as applying it once. -/
theorem ffill_idempotent (s : List (Option ℚ)) :
    ffill (ffill s) = ffill s :=
  ffillFrom_idem s none

/-! Missing-rate reports. -/

/-- C1: whenever the overall missing-rate report produces a value (it
does on every non-empty frame), that value is the count of missing
`Price` cells divided by the row count, and it lies in `[0, 1]`. -/
theorem overallMissingRate_spec (s : List Row) (r : ℚ)
    (h : overallMissingRate s = some r) :
    r = (missingCount s : ℚ) / (s.length : ℚ) ∧ 0 ≤ r ∧ r ≤ 1 := by
  by_cases he : s.isEmpty
  · rw [overallMissingRate, if_pos he] at h
    exact absurd h (by simp)
  · rw [overallMissingRate, if_neg he] at h
    obtain rfl : (missingCount s : ℚ) / (s.length : ℚ) = r := Option.some_inj.mp h
    have hnil : s ≠ [] := fun hn => he (by simp [hn])
    have hlen : 0 < s.length := List.length_pos.mpr hnil
    have hm : missingCount s ≤ s.length := List.countP_le_length _
    refine ⟨rfl, by positivity, ?_⟩
    rw [div_le_one (by exact_mod_cast hlen)]
    exact_mod_cast hm

/-- Witness for C1 at the spec's scenario frame. -/
theorem overallMissingRate_spec_witness :
    overallMissingRate demoRows = some (1/2) ∧
    ((1/2 : ℚ) = (missingCount demoRows : ℚ) / (demoRows.length : ℚ) ∧
      0 ≤ (1/2 : ℚ) ∧ (1/2 : ℚ) ≤ 1) :=
  ⟨by norm_num [overallMissingRate, missingCount, demoRows],
   overallMissingRate_spec demoRows (1/2)
     (by norm_num [overallMissingRate, missingCount, demoRows])⟩

/-- C2: the weekday bucket of key `w` holds exactly the rows of the frame
whose weekday is `w`, and every non-empty bucket contributes to the
per-weekday report the entry `(w, missing count in bucket / bucket row
count)`. -/
theorem weekdayReport_bucket_spec (s : List Row) (w : Nat) (hw : w < 7)
    (hne : bucket s w ≠ []) :
    (∀ r : Row, r ∈ bucket s w ↔ r ∈ s ∧ r.weekday = w) ∧
    (w, (missingCount (bucket s w) : ℚ) / ((bucket s w).length : ℚ)) ∈
      weekdayReport s := by
  refine ⟨fun r => by simp [bucket, List.mem_filter], ?_⟩
  apply List.mem_filterMap.mpr
  refine ⟨w, List.mem_range.mpr hw, ?_⟩
  rw [if_neg (by simpa using hne)]

/-- Witness for C2 at the spec's scenario frame, weekday 1 (Tuesday). -/
theorem weekdayReport_bucket_spec_witness :
    (1 < 7 ∧ bucket demoRows 1 ≠ []) ∧
    ((∀ r : Row, r ∈ bucket demoRows 1 ↔ r ∈ demoRows ∧ r.weekday = 1) ∧
     (1, (missingCount (bucket demoRows 1) : ℚ) / ((bucket demoRows 1).length : ℚ)) ∈
       weekdayReport demoRows) :=
  ⟨⟨by norm_num, by decide⟩,
   weekdayReport_bucket_spec demoRows 1 (by norm_num) (by decide)⟩

theorem bucket_cons (r : Row) (t : List Row) (w : Nat) :
    bucket (r :: t) w = if r.weekday = w then r :: bucket t w else bucket t w := by
  by_cases h : r.weekday = w <;> simp [bucket, List.filter_cons, h]

/-- C7: summed over the seven weekday keys, the buckets' missing counts
give the frame's total missing count and the buckets' row counts give the
frame's total row count (the weekday derived from a date is always one of
0 … 6). -/
theorem bucket_partition_sums (s : List Row) (hW : ∀ r ∈ s, r.weekday < 7) :
    ((Finset.range 7).sum fun w => missingCount (bucket s w)) = missingCount s ∧
    ((Finset.range 7).sum fun w => (bucket s w).length) = s.length := by
  induction s with
  | nil => simp [bucket, missingCount]
  | cons r t ih =>
    have hr : r.weekday ∈ Finset.range 7 := Finset.mem_range.mpr (hW r (by simp))
    obtain ⟨ihm, ihl⟩ := ih fun x hx => hW x (by simp [hx])
    constructor
    · have h1 : ∀ w, missingCount (bucket (r :: t) w) =
          missingCount (bucket t w) +
            (if r.weekday = w then missingCount [r] else 0) := by
        intro w
        by_cases h : r.weekday = w <;>
          simp [bucket_cons, h, missingCount, List.countP_cons, Nat.add_comm]
      simp only [h1]
      rw [Finset.sum_add_distrib, ihm, Finset.sum_ite_eq, if_pos hr]
      simp [missingCount, List.countP_cons, Nat.add_comm]
    · have h1 : ∀ w, (bucket (r :: t) w).length =
          (bucket t w).length + (if r.weekday = w then 1 else 0) := by
        intro w
        by_cases h : r.weekday = w <;> simp [bucket_cons, h]
      simp only [h1]
      rw [Finset.sum_add_distrib, ihl, Finset.sum_ite_eq, if_pos hr]
      simp [Nat.add_comm]

/-- Witness for C7 at the spec's scenario frame. -/
theorem bucket_partition_sums_witness :
    (∀ r ∈ demoRows, r.weekday < 7) ∧
    (((Finset.range 7).sum fun w => missingCount (bucket demoRows w)) =
        missingCount demoRows ∧
     ((Finset.range 7).sum fun w => (bucket demoRows w).length) =
        demoRows.length) :=
  ⟨by decide, bucket_partition_sums demoRows (by decide)⟩

/-- C5: on the spec's scenario frame `[(Mon,10),(Tue,None),(Wed,None),(Thu,13)]`
the overall missing rate is `1/2`, the per-weekday report is
Mon `0/1`, Tue `1/1`, Wed `1/1`, Thu `0/1`, and forward fill yields
`[10, 10, 10, 13]`. -/
theorem demo_scenario :
    overallMissingRate demoRows = some (1/2) ∧
    weekdayReport demoRows = [(0, 0), (1, 1), (2, 1), (3, 0)] ∧
    ffill (prices demoRows) = [some 10, some 10, some 10, some 13] := by
  refine ⟨?_, ?_, by decide⟩
  · norm_num [overallMissingRate, missingCount, demoRows]
  · have h : List.range 7 = [0, 1, 2, 3, 4, 5, 6] := by decide
    rw [weekdayReport, h]
    norm_num [bucket, missingCount, demoRows, List.filterMap_cons]

/-- C8: the script never mutates the loaded frame: after the overall
report, the per-weekday report, forward fill and the rolling mean have
all run, the `stocks` binding still holds the original rows (every pandas
call involved returns a new object), and each derived value was computed
from those original rows. -/
theorem runScript_no_mutation (s : List Row) :
    (runScript s).stocksAfter = s ∧
    (runScript s).overall = overallMissingRate s ∧
    (runScript s).perWeekday = weekdayReport s ∧
    (runScript s).filled = fillnaFfill s ∧
    (runScript s).rolling = rollingMeanCenter20 (prices (fillnaFfill s)) :=
  ⟨rfl, rfl, rfl, rfl, rfl⟩

/-! Helper lemmas about the centered rolling mean. -/

theorem length_window20 (s : List (Option ℚ)) (i : Nat) :
    (window20 s i).length = min (i + 10) s.length - (i - 10) := by
  simp [window20]
  omega

theorem window20_subset (s : List (Option ℚ)) (i : Nat) (x : Option ℚ)
    (hx : x ∈ window20 s i) : x ∈ s :=
  List.drop_subset _ _ (List.take_subset _ _ hx)

theorem window20_full (s : List (Option ℚ)) (i : Nat) (h10 : 10 ≤ i) :
    window20 s i = (s.drop (i - 10)).take 20 := by
  by_cases hN : i + 10 ≤ s.length
  · unfold window20
    congr 1
    omega
  · unfold window20
    rw [List.take_of_length_le (by simp; omega), List.take_of_length_le (by simp; omega)]

theorem filterMap_id_length (l : List (Option ℚ)) :
    (l.filterMap id).length = l.countP (fun o => o.isSome) := by
  induction l with
  | nil => rfl
  | cons x t ih =>
    cases x <;> simp [List.filterMap_cons, List.countP_cons, ih]

theorem filterMap_id_all_isSome (l : List (Option ℚ)) (h : ∀ x ∈ l, x.isSome) :
    l.filterMap id = l.map (fun o => o.getD 0) := by
  induction l with
  | nil => rfl
  | cons x t ih =>
    cases x with
    | none =>
      have := h none (by simp)
      simp at this
    | some v =>
      simp [List.filterMap_cons, ih fun y hy => h y (List.mem_cons_of_mem _ hy)]

theorem rollingMeanCenter20_getElem? (s : List (Option ℚ)) (i : Nat)
    (h : i < s.length) :
    (rollingMeanCenter20 s)[i]? =
      some (if 20 ≤ ((window20 s i).filterMap id).length
            then some (((window20 s i).filterMap id).sum /
                       (((window20 s i).filterMap id).length : ℚ))
            else none) := by
  simp [rollingMeanCenter20, h]

theorem rolling_full_value (s : List (Option ℚ)) (i : Nat)
    (h10 : 10 ≤ i) (hN : i + 10 ≤ s.length)
    (hsome : ∀ x ∈ window20 s i, x.isSome) :
    (rollingMeanCenter20 s)[i]? =
      some (some (((window20 s i).filterMap id).sum / 20)) := by
  have hi : i < s.length := by omega
  have hwl : (window20 s i).length = 20 := by rw [length_window20]; omega
  have hobs : ((window20 s i).filterMap id).length = 20 := by
    rw [filterMap_id_length]
    rw [List.countP_eq_length.mpr fun a ha => by simpa using hsome a ha]
    exact hwl
  rw [rollingMeanCenter20_getElem? s i hi, hobs, if_pos (le_refl 20)]
  norm_num

theorem rolling_edge_none (s : List (Option ℚ)) (i : Nat) (hi : i < s.length)
    (h : i < 10 ∨ s.length < i + 10) :
    (rollingMeanCenter20 s)[i]? = some none := by
  have hwl : (window20 s i).length < 20 := by
    rcases h with h | h <;> (rw [length_window20]; omega)
  have hle : ((window20 s i).filterMap id).length ≤ (window20 s i).length := by
    rw [filterMap_id_length]
    exact List.countP_le_length _
  rw [rollingMeanCenter20_getElem? s i hi, if_neg (by omega)]

theorem rolling_nan_window (s : List (Option ℚ)) (i : Nat) (hi : i < s.length)
    (hmem : none ∈ window20 s i) :
    (rollingMeanCenter20 s)[i]? = some none := by
  have hwl : (window20 s i).length ≤ 20 := by rw [length_window20]; omega
  have hne : (window20 s i).countP (fun o => o.isSome) ≠ (window20 s i).length := by
    intro hEq
    have := List.countP_eq_length.mp hEq none hmem
    simp at this
  have hle : (window20 s i).countP (fun o => o.isSome) ≤ (window20 s i).length :=
    List.countP_le_length _
  have hlt : ((window20 s i).filterMap id).length < 20 := by
    rw [filterMap_id_length]
    omega
  rw [rollingMeanCenter20_getElem? s i hi, if_neg (by omega)]

/-- C4: where a full window of 20 present values exists (positions at
distance at least 10 from the start and 10 from the end), the centered
rolling mean is the arithmetic mean of those 20 values; every position
too near an edge to hold a full 20-value window yields NaN. -/
theorem rollingMeanCenter20_full_and_edge (s : List (Option ℚ)) (i : Nat)
    (hi : i < s.length) :
    (10 ≤ i → i + 10 ≤ s.length → (∀ x ∈ window20 s i, x.isSome) →
      (rollingMeanCenter20 s)[i]? =
        some (some (((window20 s i).filterMap id).sum / 20))) ∧
    ((i < 10 ∨ s.length < i + 10) → (rollingMeanCenter20 s)[i]? = some none) :=
  ⟨fun h10 hN hsome => rolling_full_value s i h10 hN hsome,
   fun h => rolling_edge_none s i hi h⟩

/-- Witness for C4 on a constant series of 21 present values, position 10. -/
theorem rollingMeanCenter20_full_and_edge_witness :
    10 < (List.replicate 21 (some (1 : ℚ))).length ∧
    ((10 ≤ 10 → 10 + 10 ≤ (List.replicate 21 (some (1 : ℚ))).length →
      (∀ x ∈ window20 (List.replicate 21 (some (1 : ℚ))) 10, x.isSome) →
      (rollingMeanCenter20 (List.replicate 21 (some (1 : ℚ))))[10]? =
        some (some
          (((window20 (List.replicate 21 (some (1 : ℚ))) 10).filterMap id).sum / 20))) ∧
     ((10 < 10 ∨ (List.replicate 21 (some (1 : ℚ))).length < 10 + 10) →
      (rollingMeanCenter20 (List.replicate 21 (some (1 : ℚ))))[10]? = some none)) :=
  ⟨by decide,
   rollingMeanCenter20_full_and_edge (List.replicate 21 (some (1 : ℚ))) 10 (by decide)⟩

/-- C9: on a fully-present series of at least 20 rows, the rolling-mean
output is NaN exactly at the first 10 and last 9 positions, and at every
full-window position `i` the value is the mean of the values at positions
`i - 10` through `i + 9` (ten before `i`, `i` itself, nine after). -/
theorem rollingMeanCenter20_centering (s : List (Option ℚ))
    (hall : ∀ x ∈ s, x.isSome) (hlen : 20 ≤ s.length) (i : Nat)
    (hi : i < s.length) :
    ((rollingMeanCenter20 s)[i]? = some none ↔ (i < 10 ∨ s.length - 9 ≤ i)) ∧
    (10 ≤ i → i + 10 ≤ s.length →
      (rollingMeanCenter20 s)[i]? =
        some (some ((((s.map (fun o => o.getD 0)).drop (i - 10)).take 20).sum / 20))) := by
  have hvalue : 10 ≤ i → i + 10 ≤ s.length →
      (rollingMeanCenter20 s)[i]? =
        some (some ((((s.map (fun o => o.getD 0)).drop (i - 10)).take 20).sum / 20)) := by
    intro h10 hN
    have hsome : ∀ x ∈ window20 s i, x.isSome := fun x hx =>
      hall x (window20_subset s i x hx)
    rw [rolling_full_value s i h10 hN hsome,
        filterMap_id_all_isSome _ hsome, window20_full s i h10,
        List.map_take, List.map_drop]
  refine ⟨⟨?_, ?_⟩, hvalue⟩
  · intro hnone
    by_contra hcon
    push_neg at hcon
    obtain ⟨h10, h9⟩ := hcon
    have hN : i + 10 ≤ s.length := by omega
    rw [hvalue (by omega) hN] at hnone
    simp at hnone
  · intro h
    exact rolling_edge_none s i hi (by omega)

/-- Witness for C9 on a constant series of 20 present values, position 10. -/
theorem rollingMeanCenter20_centering_witness :
    (∀ x ∈ List.replicate 20 (some (0 : ℚ)), x.isSome) ∧
    20 ≤ (List.replicate 20 (some (0 : ℚ))).length ∧
    10 < (List.replicate 20 (some (0 : ℚ))).length ∧
    (((rollingMeanCenter20 (List.replicate 20 (some (0 : ℚ))))[10]? = some none ↔
        (10 < 10 ∨ (List.replicate 20 (some (0 : ℚ))).length - 9 ≤ 10)) ∧
     (10 ≤ 10 → 10 + 10 ≤ (List.replicate 20 (some (0 : ℚ))).length →
      (rollingMeanCenter20 (List.replicate 20 (some (0 : ℚ))))[10]? =
        some (some
          (((((List.replicate 20 (some (0 : ℚ))).map (fun o => o.getD 0)).drop
                (10 - 10)).take 20).sum / 20)))) :=
  ⟨by decide, by decide, by decide,
   rollingMeanCenter20_centering (List.replicate 20 (some (0 : ℚ)))
     (by decide) (by decide) 10 (by decide)⟩

/-- C10: on the forward-filled series, every position whose rolling
window still contains a missing value (an unfilled leading run) yields
NaN — the mean of the remaining available values is not reported. -/
theorem rollingMeanCenter20_after_ffill_missing (s : List (Option ℚ)) (i : Nat)
    (hi : i < (ffill s).length) (hmem : none ∈ window20 (ffill s) i) :
    (rollingMeanCenter20 (ffill s))[i]? = some none :=
  rolling_nan_window (ffill s) i hi hmem

/-- Witness for C10 on a series whose first value is missing followed by
20 present values, position 10. -/
theorem rollingMeanCenter20_after_ffill_missing_witness :
    10 < (ffill (none :: List.replicate 20 (some (1 : ℚ)))).length ∧
    none ∈ window20 (ffill (none :: List.replicate 20 (some (1 : ℚ)))) 10 ∧
    (rollingMeanCenter20 (ffill (none :: List.replicate 20 (some (1 : ℚ)))))[10]? =
      some none :=
  ⟨by decide, by decide,
   rollingMeanCenter20_after_ffill_missing (none :: List.replicate 20 (some (1 : ℚ)))
     10 (by decide) (by decide)⟩
